import Mathlib

/-!
Shallow embedding of the Dymo printer protocol encoder
(src/inventree_dymo/dymo.py) and of the compressed-transfer branch of the
stream decoder (src/inventree_dymo/dymo_to_png.py).

Stateful Python methods become explicit state passing.  Python exceptions
(the ValueError raised by bytearray on an out-of-range byte, IndexError on
reading past a list, AssertionError) become the error side of Except; for
the encoder the error value carries the state at the moment of the raise,
because some methods mutate a field before the raising call.
-/

/-- State of class DymoProtocolBuilder: the output byte buffer and the two
memoized fields dot_tab and bytes_per_line, which start undefined (None). -/
structure DymoProtocolBuilder where
  data : List Nat
  dot_tab : Option Int
  bytes_per_line : Option Int
deriving DecidableEq

/-- Result of a builder method: ok with the new state, or a Python exception
message together with the state at the moment of the raise. -/
abbrev PbExcept := Except (String × DymoProtocolBuilder) DymoProtocolBuilder

/-- A freshly constructed DymoProtocolBuilder. -/
def DymoProtocolBuilder.start : DymoProtocolBuilder := ⟨[], none, none⟩

/-- Whether an int is a legal bytearray element, 0 <= b < 256; Python's
bytearray raises ValueError otherwise. -/
def validByte (b : Int) : Bool := decide (0 ≤ b) && decide (b < 256)

/-- DymoProtocolBuilder.raw: append the bytes to the buffer.  bytearray(data)
is built before the append, so an out-of-range value raises ValueError and
leaves the buffer unchanged. -/
def DymoProtocolBuilder.raw (st : DymoProtocolBuilder) (l : List Int) : PbExcept :=
  if l.all validByte then .ok { st with data := st.data ++ l.map Int.toNat }
  else .error ("ValueError: bytes must be in range(0, 256)", st)

/-- DymoProtocolBuilder.set_dot_tab: no-op when tab equals the recorded
dot_tab; otherwise the field is recorded first and then the command bytes
are emitted (so on a ValueError the field is already updated). -/
def DymoProtocolBuilder.set_dot_tab (st : DymoProtocolBuilder) (tab : Int) : PbExcept :=
  if st.dot_tab = some tab then .ok st
  else DymoProtocolBuilder.raw { st with dot_tab := some tab } [0x1b, 0x42, tab]

/-- DymoProtocolBuilder.set_bytes_per_line: no-op when count equals the
recorded bytes_per_line; otherwise record, then emit 1B 44 count. -/
def DymoProtocolBuilder.set_bytes_per_line (st : DymoProtocolBuilder) (count : Int) : PbExcept :=
  if st.bytes_per_line = some count then .ok st
  else DymoProtocolBuilder.raw { st with bytes_per_line := some count } [0x1b, 0x44, count]

/-- DymoProtocolBuilder.skip_lines: emit 1B 66 01 count. -/
def DymoProtocolBuilder.skip_lines (st : DymoProtocolBuilder) (count : Int) : PbExcept :=
  st.raw [0x1b, 0x66, 0x1, count]

/-- DymoProtocolBuilder.transfer_data: emit 16 followed by the payload. -/
def DymoProtocolBuilder.transfer_data (st : DymoProtocolBuilder) (d : List Int) : PbExcept :=
  st.raw (0x16 :: d)

/-- DymoProtocolBuilder.transfer_compressed_data: emit 17 followed by one
byte per run, (color shifted left by 7) + cnt - 1. -/
def DymoProtocolBuilder.transfer_compressed_data (st : DymoProtocolBuilder)
    (runs : List (Nat × Nat)) : PbExcept :=
  st.raw (0x17 :: runs.map fun rc => (rc.2 : Int) * 2 ^ 7 + (rc.1 : Int) - 1)

/-- DymoProtocolBuilder.short_form_feed: emit 1B 47. -/
def DymoProtocolBuilder.short_form_feed (st : DymoProtocolBuilder) : PbExcept :=
  st.raw [0x1b, 0x47]

/-- DymoProtocolBuilder.form_feed: emit 1B 45. -/
def DymoProtocolBuilder.form_feed (st : DymoProtocolBuilder) : PbExcept :=
  st.raw [0x1b, 0x45]

/-- DymoProtocolBuilder.cut_tape: emit 1B 45 (same opcode as form feed). -/
def DymoProtocolBuilder.cut_tape (st : DymoProtocolBuilder) : PbExcept :=
  st.raw [0x1b, 0x45]

/-- DymoProtocolBuilder.set_tape_type: emit 1B 43 code. -/
def DymoProtocolBuilder.set_tape_type (st : DymoProtocolBuilder) (tape_type : Int) : PbExcept :=
  st.raw [0x1b, 0x43, tape_type]

/-- The scan at the top of DymoLabelBase.dump_line: walk the row once; on a
byte above 0, set start_byte if still None and always update end_byte.
Index and accumulators are explicit; called with 0 none none. -/
def scanStartEnd : List Nat → Nat → Option Nat → Option Nat → Option Nat × Option Nat
  | [], _, start_byte, end_byte => (start_byte, end_byte)
  | b :: rest, i, start_byte, end_byte =>
    if 0 < b then scanStartEnd rest (i + 1) (some (start_byte.getD i)) (some i)
    else scanStartEnd rest (i + 1) start_byte end_byte

/-- MSB-first bits of one byte, as in format(a, "b").zfill(8); the line
entries produced by Image.tobytes() are bytes, below 256. -/
def byteBits (b : Nat) : List Nat := (List.range 8).map fun k => b / 2 ^ (7 - k) % 2

/-- The run-building loop of DymoLabelBase.dump_line: curr is the current
bit value, cnt the length accumulated so far (i - start_idx); a run is
closed when the bit changes or the length has reached 128, and the last
run is closed at the end of the bits. -/
def runsAux : Nat → Nat → List Nat → List (Nat × Nat)
  | curr, cnt, [] => [(cnt, curr)]
  | curr, cnt, p :: rest =>
    if p ≠ curr ∨ 128 ≤ cnt then (cnt, curr) :: runsAux p 1 rest
    else runsAux curr (cnt + 1) rest

/-- Run-length compression of a bit list, as computed by the compressed
branch of dump_line (curr starts at pixels[0], start_idx at 0). -/
def compressRuns : List Nat → List (Nat × Nat)
  | [] => []
  | p :: rest => runsAux p 1 rest

/-- DymoLabelBase.dump_line: find the active window; a blank line emits
set_bytes_per_line 0 and an empty transfer; otherwise, with the compressed
policy, build runs and use the compressed transfer only when there are
strictly fewer runs than window bytes, falling back to the raw transfer. -/
def dump_line (compressed : Bool) (st : DymoProtocolBuilder) (line : List Nat) : PbExcept :=
  match scanStartEnd line 0 none none with
  | (some start_byte, some end_byte) =>
    let byte_count := end_byte - start_byte + 1
    let data := (line.drop start_byte).take (end_byte - start_byte + 1)
    let uncompressedPath : DymoProtocolBuilder → PbExcept := fun st => do
      let st ← st.set_dot_tab start_byte
      let st ← st.set_bytes_per_line byte_count
      st.transfer_data (data.map fun b : Nat => (b : Int))
    if compressed then
      let pixels := (data.map byteBits).flatten
      let runs := compressRuns pixels
      if runs.length < data.length then do
        let st ← st.set_dot_tab start_byte
        let st ← st.set_bytes_per_line (((runs.map Prod.fst).sum / 8 : Nat) : Int)
        st.transfer_compressed_data runs
      else uncompressedPath st
    else uncompressedPath st
  | _ => do
    let st ← st.set_bytes_per_line 0
    st.transfer_data []

/-- The backwards scan of DymoLabel.dump_label: highest row index with any
set bit, defaulting to the last row index when every row is blank. -/
def lastLineIdx (lines : List (List Nat)) : Nat :=
  match (List.range lines.length).reverse.find? (fun i => !((lines.getD i []).all (· == 0))) with
  | some i => i
  | none => lines.length - 1

/-- The while loop of DymoLabel.dump_label.  A blank row only bumps the
empty_lines counter; a non-blank row first flushes the counter with
skip_lines, then goes through dump_line; after the index is advanced the
loop breaks when it equals last_line_idx.  The fuel argument starts at
the number of rows, which bounds the iterations since the index is
advanced exactly once per iteration. -/
def dumpRows (compressed : Bool) (lines : List (List Nat)) (last_line_idx : Nat) :
    Nat → Nat → Nat → DymoProtocolBuilder → PbExcept
  | 0, _, _, st => .ok st
  | fuel + 1, i, empty_lines, st =>
    match lines[i]? with
    | none => .ok st
    | some line =>
      if line.all (· == 0) then
        dumpRows compressed lines last_line_idx fuel (i + 1) (empty_lines + 1) st
      else do
        let st ← if 0 < empty_lines then st.skip_lines empty_lines else .ok st
        let st ← dump_line compressed st line
        if last_line_idx = i + 1 then .ok st
        else dumpRows compressed lines last_line_idx fuel (i + 1) 0 st

/-- DymoLabel.dump_label: the row walk above followed by short_form_feed. -/
def dump_label (compressed : Bool) (st : DymoProtocolBuilder) (lines : List (List Nat)) :
    PbExcept := do
  let st ← dumpRows compressed lines (lastLineIdx lines) lines.length 0 0 st
  st.short_form_feed

/-- DymoTape.init_job: raw 01, dot tab 0, bytes per line 0, tape type. -/
def tape_init_job (tape_type : Int) : PbExcept := do
  let st ← DymoProtocolBuilder.start.raw [0x01]
  let st ← st.set_dot_tab 0
  let st ← st.set_bytes_per_line 0
  st.set_tape_type tape_type

/-- DymoTape.dump_label: every row through dump_line (DymoTape is always
constructed with compressed=False), then cut_tape; no blank-row elision. -/
def tape_dump_label (st : DymoProtocolBuilder) (lines : List (List Nat)) : PbExcept := do
  let st ← lines.foldlM (fun st line => dump_line false st line) st
  st.cut_tape

/-- A whole tape job: DymoTape construction (init_job) followed by add_label
on a list of bitmaps; get_data runs end_job, which for tape is a no-op. -/
def tape_job (tape_type : Int) (labels : List (List (List Nat))) : PbExcept := do
  let st ← tape_init_job tape_type
  labels.foldlM (fun st lines => tape_dump_label st lines) st

/-- The uncompressed-only line path: dump_line as it behaves when the
compressed policy is disabled, written without any reference to the
compressed transfer.  Used to state that tape jobs never compress. -/
def dump_line_uncompressed (st : DymoProtocolBuilder) (line : List Nat) : PbExcept :=
  match scanStartEnd line 0 none none with
  | (some start_byte, some end_byte) => do
    let st ← st.set_dot_tab start_byte
    let st ← st.set_bytes_per_line ((end_byte - start_byte + 1 : Nat))
    st.transfer_data (((line.drop start_byte).take (end_byte - start_byte + 1)).map fun b : Nat => (b : Int))
  | _ => do
    let st ← st.set_bytes_per_line 0
    st.transfer_data []

/-- Sum of the run lengths of a run list. -/
def sumLens (runs : List (Nat × Nat)) : Nat := (runs.map Prod.fst).sum

/-- Total bit count that a byte list decodes to under the run format of the
stream decoder: each byte holds low7 + 1 bits. -/
def totalBits (l : List Nat) : Nat := (l.map fun b => b % 128 + 1).sum

/-- The inner while loop of the 0x17 branch of dymo_to_png: read run bytes
while the decoded bits are fewer than the target; each byte b gives a run
of b mod 128 + 1 bits of color b / 128.  Returns the runs and the count of
bytes consumed, or IndexError when the buffer ends first. -/
def readRuns : List Nat → Nat → Except String (List (Nat × Nat) × Nat)
  | _, 0 => .ok ([], 0)
  | [], _ + 1 => .error "IndexError: list index out of range"
  | b :: rest, t + 1 =>
    match readRuns rest (t + 1 - (b % 128 + 1)) with
    | .ok (runs, bc) => .ok ((b % 128 + 1, b / 128) :: runs, bc + 1)
    | .error e => .error e

/-- The 0x17 branch of dymo_to_png at position i: decode runs totalling at
least bytes_per_line * 8 bits starting after the opcode, then assert that
the byte at the new position is 16, 17 or 1B. -/
def decode_compressed (all_bytes : List Nat) (i : Nat) (bytes_per_line : Nat) :
    Except String (List (Nat × Nat) × Nat) :=
  match readRuns (all_bytes.drop (i + 1)) (bytes_per_line * 8) with
  | .error e => .error e
  | .ok (runs, bc) =>
    match all_bytes[i + 1 + bc]? with
    | none => .error "IndexError: list index out of range"
    | some b =>
      if b = 0x16 ∨ b = 0x17 ∨ b = 0x1b then .ok (runs, i + 1 + bc)
      else .error "AssertionError"

/-- The active window of a line, line[s : e + 1]. -/
def windowOf (line : List Nat) (s e : Nat) : List Nat := (line.drop s).take (e - s + 1)

/-- The run list dump_line builds for the window of a line. -/
def lineRuns (line : List Nat) (s e : Nat) : List (Nat × Nat) :=
  compressRuns (((windowOf line s e).map byteBits).flatten)

/-- The byte each run encodes to, color * 128 + length - 1, as naturals. -/
def encodedRuns (runs : List (Nat × Nat)) : List Nat :=
  runs.map fun rc => rc.2 * 128 + rc.1 - 1

/-- Bytes set_dot_tab appends for value s given the prior state: nothing
when memoized, the 1B 42 command otherwise. -/
def dtPart (st : DymoProtocolBuilder) (s : Nat) : List Nat :=
  if st.dot_tab = some (s : Int) then [] else [0x1b, 0x42, s]

/-- Bytes set_bytes_per_line appends for value n given the prior state. -/
def bplPart (st : DymoProtocolBuilder) (n : Nat) : List Nat :=
  if st.bytes_per_line = some (n : Int) then [] else [0x1b, 0x44, n]

/-- The commands a tape job may emit, at the granularity of the protocol:
a command stream refines the flat byte buffer. -/
inductive ProtocolCmd where
  | setDotTab (n : Nat)
  | setBytesPerLine (n : Nat)
  | setTapeType (n : Nat)
  | startTape
  | cutTape
  | transferRaw (payload : List Nat)
  | transferCompressed (payload : List Nat)
deriving DecidableEq

/-- Wire bytes of one command. -/
def renderCmd : ProtocolCmd → List Nat
  | .setDotTab n => [0x1b, 0x42, n]
  | .setBytesPerLine n => [0x1b, 0x44, n]
  | .setTapeType n => [0x1b, 0x43, n]
  | .startTape => [0x01]
  | .cutTape => [0x1b, 0x45]
  | .transferRaw p => 0x16 :: p
  | .transferCompressed p => 0x17 :: p

/-- Whether a command is the compressed 0x17 transfer. -/
def ProtocolCmd.isCompressedTransfer : ProtocolCmd → Bool
  | .transferCompressed _ => true
  | _ => false

/-- The bytes appended between two builder states decompose into commands
none of which is a compressed transfer. -/
def RawOnlyStep (a b : DymoProtocolBuilder) : Prop :=
  ∃ cmds : List ProtocolCmd,
    b.data = a.data ++ (cmds.map renderCmd).flatten ∧
    ∀ c ∈ cmds, c.isCompressedTransfer = false

lemma ok_bind {ε α β : Type} (a : α) (f : α → Except ε β) : (Except.ok a >>= f) = f a := rfl

lemma bind_eq_ok {ε α β : Type} {x : Except ε α} {f : α → Except ε β} {b : β} :
    x >>= f = .ok b ↔ ∃ a, x = .ok a ∧ f a = .ok b := by
  cases x <;> simp [Bind.bind, Except.bind]

lemma raw_eq_ok (st : DymoProtocolBuilder) (l : List Int) (h : l.all validByte = true) :
    st.raw l = .ok ⟨st.data ++ l.map Int.toNat, st.dot_tab, st.bytes_per_line⟩ := by
  simp [DymoProtocolBuilder.raw, h]

lemma raw_ok_inv {st st₁ : DymoProtocolBuilder} {l : List Int} (h : st.raw l = .ok st₁) :
    l.all validByte = true ∧ st₁ = ⟨st.data ++ l.map Int.toNat, st.dot_tab, st.bytes_per_line⟩ := by
  unfold DymoProtocolBuilder.raw at h
  split at h
  · next hv => exact ⟨hv, by cases h; rfl⟩
  · cases h

lemma scanStartEnd_blank :
    ∀ (l : List Nat) (i : Nat) (s0 e0 : Option Nat), (∀ b ∈ l, b = 0) →
      scanStartEnd l i s0 e0 = (s0, e0) := by
  intro l
  induction l with
  | nil => intro i s0 e0 _; rfl
  | cons b rest ih =>
    intro i s0 e0 h
    have hb : b = 0 := h b (by simp)
    simp only [scanStartEnd, hb]
    exact ih (i + 1) s0 e0 fun x hx => h x (by simp [hx])

lemma scanStartEnd_bounds :
    ∀ (l : List Nat) (i : Nat) (s0 e0 : Option Nat) (s e : Nat),
      ((s0 = none ∧ e0 = none) ∨ (∃ u v, s0 = some u ∧ e0 = some v ∧ u ≤ v ∧ v < i)) →
      scanStartEnd l i s0 e0 = (some s, some e) → s ≤ e ∧ e < i + l.length := by
  intro l
  induction l with
  | nil =>
    intro i s0 e0 s e hacc h
    simp only [scanStartEnd] at h
    rcases hacc with ⟨h1, h2⟩ | ⟨u, v, h1, h2, h3, h4⟩
    · rw [h1, h2] at h; exact absurd (congrArg Prod.fst h) (by simp)
    · rw [h1, h2] at h
      obtain ⟨rfl, rfl⟩ : u = s ∧ v = e := by
        constructor <;> [exact Option.some_injective _ (congrArg Prod.fst h);
          exact Option.some_injective _ (congrArg Prod.snd h)]
      exact ⟨h3, by simpa using h4⟩
  | cons b rest ih =>
    intro i s0 e0 s e hacc h
    simp only [scanStartEnd] at h
    by_cases hb : 0 < b
    · rw [if_pos hb] at h
      have := ih (i + 1) (some (s0.getD i)) (some i) s e ?_ h
      · exact ⟨this.1, by simpa [Nat.add_comm, Nat.add_left_comm] using this.2⟩
      · right
        refine ⟨s0.getD i, i, rfl, rfl, ?_, Nat.lt_succ_self i⟩
        rcases hacc with ⟨h1, _⟩ | ⟨u, v, h1, _, h3, h4⟩
        · simp [h1]
        · simp only [h1, Option.getD_some]
          omega
    · rw [if_neg hb] at h
      have := ih (i + 1) s0 e0 s e ?_ h
      · exact ⟨this.1, by simpa [Nat.add_comm, Nat.add_left_comm] using this.2⟩
      · rcases hacc with ⟨h1, h2⟩ | ⟨u, v, h1, h2, h3, h4⟩
        · exact Or.inl ⟨h1, h2⟩
        · exact Or.inr ⟨u, v, h1, h2, h3, by omega⟩

lemma sumLens_runsAux :
    ∀ (rest : List Nat) (curr cnt : Nat), sumLens (runsAux curr cnt rest) = cnt + rest.length := by
  intro rest
  induction rest with
  | nil => intro curr cnt; simp [runsAux, sumLens]
  | cons p r ih =>
    intro curr cnt
    simp only [runsAux]
    split
    · simp only [sumLens, List.map_cons, List.sum_cons] at *
      rw [ih p 1]
      simp only [List.length_cons]
      omega
    · rw [ih curr (cnt + 1)]
      simp only [List.length_cons]
      omega

lemma sumLens_compressRuns (pixels : List Nat) :
    sumLens (compressRuns pixels) = pixels.length := by
  cases pixels with
  | nil => simp [compressRuns, sumLens]
  | cons p rest => simp [compressRuns, sumLens_runsAux, Nat.add_comm]

lemma runsAux_mem_bounds :
    ∀ (rest : List Nat) (curr cnt : Nat), curr ≤ 1 → 1 ≤ cnt → cnt ≤ 128 →
      (∀ p ∈ rest, p ≤ 1) →
      ∀ r ∈ runsAux curr cnt rest, 1 ≤ r.1 ∧ r.1 ≤ 128 ∧ r.2 ≤ 1 := by
  intro rest
  induction rest with
  | nil =>
    intro curr cnt hc h1 h128 _ r hr
    simp only [runsAux, List.mem_singleton] at hr
    subst hr; exact ⟨h1, h128, hc⟩
  | cons p rs ih =>
    intro curr cnt hc h1 h128 hrest r hr
    simp only [runsAux] at hr
    split at hr
    · rcases List.mem_cons.mp hr with rfl | hr
      · exact ⟨h1, h128, hc⟩
      · exact ih p 1 (hrest p (by simp)) le_rfl (by norm_num)
          (fun q hq => hrest q (by simp [hq])) r hr
    · next hcond =>
      have hlt : cnt < 128 := by
        rcases not_or.mp hcond with ⟨_, h⟩; omega
      exact ih curr (cnt + 1) hc (by omega) (by omega)
        (fun q hq => hrest q (by simp [hq])) r hr

lemma compressRuns_mem_bounds (pixels : List Nat) (hp : ∀ p ∈ pixels, p ≤ 1) :
    ∀ r ∈ compressRuns pixels, 1 ≤ r.1 ∧ r.1 ≤ 128 ∧ r.2 ≤ 1 := by
  cases pixels with
  | nil => simp [compressRuns]
  | cons p rest =>
    exact runsAux_mem_bounds rest p 1 (hp p (by simp)) le_rfl (by norm_num)
      (fun q hq => hp q (by simp [hq]))

lemma byteBits_le_one (b : Nat) : ∀ x ∈ byteBits b, x ≤ 1 := by
  intro x hx
  simp only [byteBits, List.mem_map, List.mem_range] at hx
  obtain ⟨k, _, rfl⟩ := hx
  omega

lemma byteBits_length (b : Nat) : (byteBits b).length = 8 := by simp [byteBits]

lemma pixels_length (w : List Nat) : ((w.map byteBits).flatten).length = 8 * w.length := by
  induction w with
  | nil => simp
  | cons b rest ih =>
    simp only [List.map_cons, List.flatten_cons, List.length_append, byteBits_length, ih,
      List.length_cons]
    ring

lemma pixels_le_one (w : List Nat) : ∀ x ∈ (w.map byteBits).flatten, x ≤ 1 := by
  intro x hx
  simp only [List.mem_flatten, List.mem_map] at hx
  obtain ⟨l, ⟨b, _, rfl⟩, hxl⟩ := hx
  exact byteBits_le_one b x hxl

lemma set_dot_tab_eq_ok (st : DymoProtocolBuilder) (n : Int) (h0 : 0 ≤ n) (h1 : n < 256) :
    st.set_dot_tab n = .ok ⟨st.data ++ (if st.dot_tab = some n then [] else [0x1b, 0x42, n.toNat]),
      some n, st.bytes_per_line⟩ := by
  unfold DymoProtocolBuilder.set_dot_tab
  by_cases h : st.dot_tab = some n
  · rw [if_pos h, if_pos h]
    cases st with
    | mk d t b => simp_all
  · rw [if_neg h, if_neg h]
    rw [raw_eq_ok]
    · simp
    · simp [validByte, h0, h1]

lemma set_bytes_per_line_eq_ok (st : DymoProtocolBuilder) (n : Int) (h0 : 0 ≤ n) (h1 : n < 256) :
    st.set_bytes_per_line n =
      .ok ⟨st.data ++ (if st.bytes_per_line = some n then [] else [0x1b, 0x44, n.toNat]),
        st.dot_tab, some n⟩ := by
  unfold DymoProtocolBuilder.set_bytes_per_line
  by_cases h : st.bytes_per_line = some n
  · rw [if_pos h, if_pos h]
    cases st with
    | mk d t b => simp_all
  · rw [if_neg h, if_neg h]
    rw [raw_eq_ok]
    · simp
    · simp [validByte, h0, h1]

lemma transfer_data_eq_ok (st : DymoProtocolBuilder) (d : List Int)
    (h : ∀ b ∈ d, 0 ≤ b ∧ b < 256) :
    st.transfer_data d = .ok ⟨st.data ++ 0x16 :: d.map Int.toNat, st.dot_tab,
      st.bytes_per_line⟩ := by
  unfold DymoProtocolBuilder.transfer_data
  rw [raw_eq_ok]
  · simp
  · simp only [List.all_cons, List.all_eq_true, Bool.and_eq_true]
    refine ⟨by simp [validByte], fun b hb => ?_⟩
    simp [validByte, (h b hb).1, (h b hb).2]

lemma transfer_compressed_eq_ok (st : DymoProtocolBuilder) (runs : List (Nat × Nat))
    (h : ∀ r ∈ runs, 1 ≤ r.1 ∧ r.1 ≤ 128 ∧ r.2 ≤ 1) :
    st.transfer_compressed_data runs =
      .ok ⟨st.data ++ 0x17 :: encodedRuns runs, st.dot_tab, st.bytes_per_line⟩ := by
  unfold DymoProtocolBuilder.transfer_compressed_data
  rw [raw_eq_ok]
  · have hmap : ((0x17 : Int) :: runs.map fun rc =>
        (rc.2 : Int) * 2 ^ 7 + (rc.1 : Int) - 1).map Int.toNat = 0x17 :: encodedRuns runs := by
      simp only [List.map_cons, List.map_map, Int.toNat_ofNat, encodedRuns]
      refine congrArg (List.cons 23) (List.map_congr_left fun r hr => ?_)
      obtain ⟨h1, _, _⟩ := h r hr
      simp only [Function.comp_apply]
      omega
    rw [hmap]
  · simp only [List.all_cons, List.all_eq_true, Bool.and_eq_true, List.mem_map]
    refine ⟨by simp [validByte], ?_⟩
    rintro x ⟨r, hr, rfl⟩
    obtain ⟨h1, h2, h3⟩ := h r hr
    simp only [validByte, Bool.and_eq_true, decide_eq_true_eq]
    constructor <;> [skip; skip] <;>
      · have c1 : (r.2 : Int) ≤ 1 := by exact_mod_cast h3
        have c2 : (1 : Int) ≤ (r.1 : Int) := by exact_mod_cast h1
        have c3 : (r.1 : Int) ≤ 128 := by exact_mod_cast h2
        have c0 : (0 : Int) ≤ (r.2 : Int) := by positivity
        omega

lemma dump_line_blank_eq (c : Bool) (st : DymoProtocolBuilder) (line : List Nat)
    (h : line.all (· == 0) = true) :
    dump_line c st line = .ok ⟨st.data ++ bplPart st 0 ++ [0x16], st.dot_tab, some 0⟩ := by
  have hb : ∀ b ∈ line, b = 0 := by
    intro b hbm
    simpa using List.all_eq_true.mp h b hbm
  have hscan : scanStartEnd line 0 none none = (none, none) :=
    scanStartEnd_blank line 0 none none hb
  simp only [dump_line, hscan]
  rw [set_bytes_per_line_eq_ok st 0 (by norm_num) (by norm_num), ok_bind,
    transfer_data_eq_ok _ [] (by simp)]
  simp [bplPart]


lemma dump_line_nonblank_eq (c : Bool) (st : DymoProtocolBuilder) (line : List Nat) (s e : Nat)
    (hscan : scanStartEnd line 0 none none = (some s, some e))
    (hlen : line.length ≤ 255) (hbytes : ∀ b ∈ line, b < 256) :
    dump_line c st line = .ok ⟨st.data ++ dtPart st s ++ bplPart st (windowOf line s e).length ++
      (if c = true ∧ (lineRuns line s e).length < (windowOf line s e).length
       then 0x17 :: encodedRuns (lineRuns line s e)
       else 0x16 :: windowOf line s e),
      some (s : Int), some ((windowOf line s e).length : Int)⟩ := by
  obtain ⟨hse, helt⟩ := scanStartEnd_bounds line 0 none none s e (Or.inl ⟨rfl, rfl⟩) hscan
  have helt' : e < line.length := by simpa using helt
  have hwl : ((line.drop s).take (e - s + 1)).length = e - s + 1 := by
    simp only [List.length_take, List.length_drop]
    omega
  have hs0 : (0 : Int) ≤ (s : Int) := Int.ofNat_nonneg s
  have hs256 : ((s : Int)) < 256 := by exact_mod_cast (by omega : s < 256)
  have hbc0 : (0 : Int) ≤ ((e - s + 1 : Nat) : Int) := Int.ofNat_nonneg _
  have hbc256 : (((e - s + 1 : Nat) : Int)) < 256 := by exact_mod_cast (by omega : e - s + 1 < 256)
  have hwin_sub : ∀ b ∈ ((line.drop s).take (e - s + 1)).map (fun b : Nat => (b : Int)),
      (0 : Int) ≤ b ∧ b < 256 := by
    rintro b hb
    rw [List.mem_map] at hb
    obtain ⟨a, ha, rfl⟩ := hb
    have : a < 256 := hbytes a (List.drop_subset s line (List.take_subset _ _ ha))
    exact ⟨Int.ofNat_nonneg a, by exact_mod_cast this⟩
  have hpix_le : ∀ x ∈ ((((line.drop s).take (e - s + 1)).map byteBits).flatten), x ≤ 1 :=
    pixels_le_one _
  have hruns := compressRuns_mem_bounds _ hpix_le
  have hbpl : ((compressRuns ((((line.drop s).take (e - s + 1)).map byteBits).flatten)).map
      Prod.fst).sum / 8 = e - s + 1 := by
    have h1 : ((compressRuns ((((line.drop s).take (e - s + 1)).map byteBits).flatten)).map
        Prod.fst).sum = sumLens (compressRuns ((((line.drop s).take (e - s + 1)).map
          byteBits).flatten)) := rfl
    rw [h1, sumLens_compressRuns, pixels_length, hwl, Nat.mul_div_cancel_left _ (by norm_num)]
  have huncomp : (DymoProtocolBuilder.set_dot_tab st s >>= fun st =>
      st.set_bytes_per_line ((e - s + 1 : Nat)) >>= fun st =>
        st.transfer_data (((line.drop s).take (e - s + 1)).map fun b : Nat => (b : Int))) =
      .ok ⟨st.data ++ dtPart st s ++ bplPart st (e - s + 1) ++
        (0x16 :: (line.drop s).take (e - s + 1)), some (s : Int),
        some ((e - s + 1 : Nat) : Int)⟩ := by
    rw [set_dot_tab_eq_ok st s hs0 hs256, ok_bind,
      set_bytes_per_line_eq_ok _ _ hbc0 hbc256, ok_bind, transfer_data_eq_ok _ _ hwin_sub]
    simp only [dtPart, bplPart, List.map_map, Function.comp_def, Int.toNat_natCast,
      List.map_id, List.map_id']
  simp only [dump_line, hscan, lineRuns, windowOf, hwl]
  cases c with
  | false =>
    simp only [Bool.false_eq_true, false_and, if_false]
    exact huncomp
  | true =>
    simp only [eq_self_iff_true, true_and, if_true]
    by_cases hlt : (compressRuns ((((line.drop s).take (e - s + 1)).map
        byteBits).flatten)).length < e - s + 1
    · rw [if_pos hlt, if_pos hlt]
      rw [set_dot_tab_eq_ok st s hs0 hs256, ok_bind]
      rw [show ((((compressRuns ((((line.drop s).take (e - s + 1)).map
          byteBits).flatten)).map Prod.fst).sum / 8 : Nat) : Int) = ((e - s + 1 : Nat) : Int)
        by exact_mod_cast hbpl]
      rw [set_bytes_per_line_eq_ok _ _ hbc0 hbc256, ok_bind,
        transfer_compressed_eq_ok _ _ hruns]
      simp only [dtPart, bplPart, Int.toNat_natCast]
    · rw [if_neg hlt, if_neg hlt]
      exact huncomp

lemma set_dot_tab_memo (st : DymoProtocolBuilder) (n : Int) (h : st.dot_tab = some n) :
    st.set_dot_tab n = .ok st := by
  unfold DymoProtocolBuilder.set_dot_tab
  rw [if_pos h]

lemma set_bytes_per_line_memo (st : DymoProtocolBuilder) (n : Int)
    (h : st.bytes_per_line = some n) : st.set_bytes_per_line n = .ok st := by
  unfold DymoProtocolBuilder.set_bytes_per_line
  rw [if_pos h]

lemma set_dot_tab_ok_inv {st st₁ : DymoProtocolBuilder} {n : Int}
    (h : st.set_dot_tab n = .ok st₁) :
    st₁.dot_tab = some n ∧ st₁.bytes_per_line = st.bytes_per_line ∧
      ∃ t, st₁.data = st.data ++ t := by
  unfold DymoProtocolBuilder.set_dot_tab at h
  split at h
  · next hc =>
    injection h with h
    subst h
    exact ⟨hc, rfl, [], by simp⟩
  · obtain ⟨-, h⟩ := raw_ok_inv h
    subst h
    exact ⟨rfl, rfl, _, rfl⟩

lemma set_bytes_per_line_ok_inv {st st₁ : DymoProtocolBuilder} {n : Int}
    (h : st.set_bytes_per_line n = .ok st₁) :
    st₁.bytes_per_line = some n ∧ st₁.dot_tab = st.dot_tab ∧
      ∃ t, st₁.data = st.data ++ t := by
  unfold DymoProtocolBuilder.set_bytes_per_line at h
  split at h
  · next hc =>
    injection h with h
    subst h
    exact ⟨hc, rfl, [], by simp⟩
  · obtain ⟨-, h⟩ := raw_ok_inv h
    subst h
    exact ⟨rfl, rfl, _, rfl⟩

lemma scanStartEnd_keeps_some :
    ∀ (l : List Nat) (i u v : Nat), ∃ s e, scanStartEnd l i (some u) (some v) = (some s, some e) := by
  intro l
  induction l with
  | nil => intro i u v; exact ⟨u, v, rfl⟩
  | cons b rest ih =>
    intro i u v
    simp only [scanStartEnd]
    by_cases hb : 0 < b
    · rw [if_pos hb]
      exact ih (i + 1) _ _
    · rw [if_neg hb]
      exact ih (i + 1) u v

lemma scanStartEnd_some :
    ∀ (l : List Nat) (i : Nat) (s0 e0 : Option Nat), (∃ b ∈ l, 0 < b) →
      ∃ s e, scanStartEnd l i s0 e0 = (some s, some e) := by
  intro l
  induction l with
  | nil => intro i s0 e0 h; simp at h
  | cons b rest ih =>
    intro i s0 e0 h
    simp only [scanStartEnd]
    by_cases hb : 0 < b
    · rw [if_pos hb]
      exact scanStartEnd_keeps_some rest (i + 1) _ _
    · rw [if_neg hb]
      refine ih (i + 1) s0 e0 ?_
      obtain ⟨x, hx, hxpos⟩ := h
      rcases List.mem_cons.mp hx with rfl | hx
      · exact absurd hxpos hb
      · exact ⟨x, hx, hxpos⟩

lemma dump_line_ok_again {c : Bool} {st st₁ : DymoProtocolBuilder} {line : List Nat}
    (h : dump_line c st line = .ok st₁) :
    ∃ t p, dump_line c st₁ line = .ok ⟨st₁.data ++ t, st₁.dot_tab, st₁.bytes_per_line⟩ ∧
      (t = 0x16 :: p ∨ t = 0x17 :: p) := by
  by_cases hbl : line.all (· == 0) = true
  · rw [dump_line_blank_eq c st line hbl] at h
    injection h with h
    subst h
    refine ⟨[0x16], [], ?_, Or.inl rfl⟩
    rw [dump_line_blank_eq c _ line hbl]
    simp [bplPart]
  · have hs : ∃ b ∈ line, 0 < b := by
      simp only [List.all_eq_true, beq_iff_eq] at hbl
      push_neg at hbl
      obtain ⟨x, hx, hx0⟩ := hbl
      exact ⟨x, hx, Nat.pos_of_ne_zero hx0⟩
    obtain ⟨s, e, hsc⟩ := scanStartEnd_some line 0 none none hs
    have huncomp : ∀ {sta stb : DymoProtocolBuilder},
        (sta.set_dot_tab s >>= fun st => st.set_bytes_per_line ((e - s + 1 : Nat)) >>= fun st =>
          st.transfer_data (((line.drop s).take (e - s + 1)).map fun b : Nat => (b : Int))) =
            .ok stb →
        ∃ t p,
          (stb.set_dot_tab s >>= fun st => st.set_bytes_per_line ((e - s + 1 : Nat)) >>=
            fun st => st.transfer_data (((line.drop s).take (e - s + 1)).map
              fun b : Nat => (b : Int))) =
            .ok ⟨stb.data ++ t, stb.dot_tab, stb.bytes_per_line⟩ ∧
          (t = 0x16 :: p ∨ t = 0x17 :: p) := by
      intro sta stb h
      rcases bind_eq_ok.mp h with ⟨a, ha, h⟩
      rcases bind_eq_ok.mp h with ⟨b, hb, h⟩
      obtain ⟨ha1, ha2, -⟩ := set_dot_tab_ok_inv ha
      obtain ⟨hb1, hb2, -⟩ := set_bytes_per_line_ok_inv hb
      unfold DymoProtocolBuilder.transfer_data at h
      obtain ⟨hval, h⟩ := raw_ok_inv h
      subst h
      refine ⟨List.map Int.toNat (0x16 :: ((line.drop s).take (e - s + 1)).map
          fun b : Nat => (b : Int)),
        List.map Int.toNat (((line.drop s).take (e - s + 1)).map fun b : Nat => (b : Int)),
        ?_, Or.inl (by simp)⟩
      rw [set_dot_tab_memo _ _ (by rw [hb2, ha1]), ok_bind,
        set_bytes_per_line_memo _ _ (by rw [hb1]), ok_bind]
      unfold DymoProtocolBuilder.transfer_data
      rw [raw_eq_ok _ _ hval]
    simp only [dump_line, hsc] at h ⊢
    cases c with
    | false =>
      rw [if_neg Bool.false_ne_true] at h ⊢
      exact huncomp h
    | true =>
      rw [if_pos rfl] at h ⊢
      by_cases hlt : (compressRuns ((((line.drop s).take (e - s + 1)).map
          byteBits).flatten)).length < ((line.drop s).take (e - s + 1)).length
      · rw [if_pos hlt] at h ⊢
        rcases bind_eq_ok.mp h with ⟨a, ha, h⟩
        rcases bind_eq_ok.mp h with ⟨b, hb, h⟩
        obtain ⟨ha1, ha2, -⟩ := set_dot_tab_ok_inv ha
        obtain ⟨hb1, hb2, -⟩ := set_bytes_per_line_ok_inv hb
        unfold DymoProtocolBuilder.transfer_compressed_data at h
        obtain ⟨hval, h⟩ := raw_ok_inv h
        subst h
        refine ⟨List.map Int.toNat (0x17 :: (compressRuns ((((line.drop s).take
            (e - s + 1)).map byteBits).flatten)).map
              fun rc => (rc.2 : Int) * 2 ^ 7 + (rc.1 : Int) - 1),
          List.map Int.toNat ((compressRuns ((((line.drop s).take (e - s + 1)).map
            byteBits).flatten)).map fun rc => (rc.2 : Int) * 2 ^ 7 + (rc.1 : Int) - 1),
          ?_, Or.inr (by simp)⟩
        rw [set_dot_tab_memo _ _ (by rw [hb2, ha1]), ok_bind,
          set_bytes_per_line_memo _ _ (by rw [hb1]), ok_bind]
        unfold DymoProtocolBuilder.transfer_compressed_data
        rw [raw_eq_ok _ _ hval]
      · rw [if_neg hlt] at h ⊢
        exact huncomp h

lemma dumpRows_all_blank (c : Bool) (lines : List (List Nat)) (last : Nat)
    (h : ∀ line ∈ lines, line.all (· == 0) = true) :
    ∀ (fuel i empty : Nat) (st : DymoProtocolBuilder),
      dumpRows c lines last fuel i empty st = .ok st := by
  intro fuel
  induction fuel with
  | zero => intro i empty st; rfl
  | succ fuel ih =>
    intro i empty st
    show (match lines[i]? with
      | none => Except.ok st
      | some line =>
        if line.all (· == 0) then
          dumpRows c lines last fuel (i + 1) (empty + 1) st
        else do
          let st ← if 0 < empty then st.skip_lines empty else .ok st
          let st ← dump_line c st line
          if last = i + 1 then .ok st
          else dumpRows c lines last fuel (i + 1) 0 st) = .ok st
    cases hline : lines[i]? with
    | none => rfl
    | some line =>
      have hmem : line ∈ lines := by
        obtain ⟨hlt, rfl⟩ := List.getElem?_eq_some.mp hline
        exact List.getElem_mem _
      simp only
      rw [if_pos (h line hmem)]
      exact ih (i + 1) (empty + 1) st

lemma lastLineIdx_all_blank (lines : List (List Nat))
    (h : ∀ line ∈ lines, line.all (· == 0) = true) :
    lastLineIdx lines = lines.length - 1 := by
  unfold lastLineIdx
  have hfind : (List.range lines.length).reverse.find?
      (fun i => !((lines.getD i []).all (· == 0))) = none := by
    rw [List.find?_eq_none]
    intro i hi
    rw [List.mem_reverse, List.mem_range] at hi
    have hgd : lines.getD i [] = lines[i] := List.getD_eq_getElem lines [] hi
    have hx : (lines.getD i []).all (· == 0) = true := by
      rw [hgd]
      exact h lines[i] (List.getElem_mem hi)
    rw [hx]
    decide
  rw [hfind]

lemma short_form_feed_eq (st : DymoProtocolBuilder) :
    st.short_form_feed = .ok ⟨st.data ++ [0x1b, 0x47], st.dot_tab, st.bytes_per_line⟩ := by
  unfold DymoProtocolBuilder.short_form_feed
  rw [raw_eq_ok _ _ (by rfl)]
  rfl

lemma readRuns_cons_succ (b : Nat) (rest : List Nat) (t : Nat) :
    readRuns (b :: rest) (t + 1) =
      match readRuns rest (t + 1 - (b % 128 + 1)) with
      | .ok (runs, bc) => .ok ((b % 128 + 1, b / 128) :: runs, bc + 1)
      | .error e => .error e := rfl

lemma readRuns_short : ∀ (l : List Nat) (t : Nat), totalBits l < t →
    ∃ e, readRuns l t = .error e := by
  intro l
  induction l with
  | nil =>
    intro t h
    cases t with
    | zero => simp [totalBits] at h
    | succ t => exact ⟨_, rfl⟩
  | cons b rest ih =>
    intro t h
    have htb : totalBits (b :: rest) = (b % 128 + 1) + totalBits rest := by
      simp [totalBits]
    cases t with
    | zero => exact absurd h (Nat.not_lt_zero _)
    | succ t =>
      rw [readRuns_cons_succ]
      have hrest : totalBits rest < t + 1 - (b % 128 + 1) := by
        rw [htb] at h
        omega
      obtain ⟨e, he⟩ := ih _ hrest
      rw [he]
      exact ⟨e, rfl⟩

lemma readRuns_ok_sum : ∀ (l : List Nat) (t : Nat) (runs : List (Nat × Nat)) (bc : Nat),
    readRuns l t = .ok (runs, bc) → t ≤ sumLens runs := by
  intro l
  induction l with
  | nil =>
    intro t runs bc h
    cases t with
    | zero => exact Nat.zero_le _
    | succ t => simp [readRuns] at h
  | cons b rest ih =>
    intro t runs bc h
    cases t with
    | zero => exact Nat.zero_le _
    | succ t =>
      rw [readRuns_cons_succ] at h
      cases hrec : readRuns rest (t + 1 - (b % 128 + 1)) with
      | error e => rw [hrec] at h; simp at h
      | ok pr =>
        rw [hrec] at h
        obtain ⟨runs1, bc1⟩ := pr
        simp only [Except.ok.injEq, Prod.mk.injEq] at h
        obtain ⟨h1, h2⟩ := h
        subst h1
        have hsum := ih _ _ _ hrec
        have hcons : sumLens ((b % 128 + 1, b / 128) :: runs1) = (b % 128 + 1) + sumLens runs1 := by
          simp [sumLens]
        rw [hcons]
        omega

lemma rawOnly_refl (a : DymoProtocolBuilder) : RawOnlyStep a a :=
  ⟨[], by simp, by simp⟩

lemma rawOnly_trans {a b c : DymoProtocolBuilder} (h1 : RawOnlyStep a b) (h2 : RawOnlyStep b c) :
    RawOnlyStep a c := by
  obtain ⟨l1, hd1, hc1⟩ := h1
  obtain ⟨l2, hd2, hc2⟩ := h2
  refine ⟨l1 ++ l2, ?_, ?_⟩
  · rw [hd2, hd1]
    simp [List.map_append, List.flatten_append]
  · intro cmd hcmd
    rcases List.mem_append.mp hcmd with hm | hm
    · exact hc1 cmd hm
    · exact hc2 cmd hm


lemma rawOnly_of_ok {st₀ st st₁ : DymoProtocolBuilder} {l : List Int} (cmd : ProtocolCmd)
    (h : st.raw l = .ok st₁) (hdata : st.data = st₀.data)
    (hrender : l.map Int.toNat = renderCmd cmd)
    (hnc : cmd.isCompressedTransfer = false) : RawOnlyStep st₀ st₁ := by
  obtain ⟨-, h⟩ := raw_ok_inv h
  subst h
  refine ⟨[cmd], ?_, ?_⟩
  · simp [hrender, hdata]
  · intro c hc
    rw [List.mem_singleton] at hc
    subst hc
    exact hnc

lemma rawOnly_set_dot_tab {st st₁ : DymoProtocolBuilder} {n : Int}
    (h : st.set_dot_tab n = .ok st₁) : RawOnlyStep st st₁ := by
  unfold DymoProtocolBuilder.set_dot_tab at h
  split at h
  · injection h with h
    subst h
    exact rawOnly_refl st
  · exact rawOnly_of_ok (.setDotTab n.toNat) h rfl (by simp [renderCmd]) rfl

lemma rawOnly_set_bytes_per_line {st st₁ : DymoProtocolBuilder} {n : Int}
    (h : st.set_bytes_per_line n = .ok st₁) : RawOnlyStep st st₁ := by
  unfold DymoProtocolBuilder.set_bytes_per_line at h
  split at h
  · injection h with h
    subst h
    exact rawOnly_refl st
  · exact rawOnly_of_ok (.setBytesPerLine n.toNat) h rfl (by simp [renderCmd]) rfl

lemma rawOnly_transfer_data {st st₁ : DymoProtocolBuilder} {d : List Int}
    (h : st.transfer_data d = .ok st₁) : RawOnlyStep st st₁ := by
  unfold DymoProtocolBuilder.transfer_data at h
  exact rawOnly_of_ok (.transferRaw (d.map Int.toNat)) h rfl (by simp [renderCmd]) rfl

lemma dump_line_false_eq (st : DymoProtocolBuilder) (line : List Nat) :
    dump_line false st line = dump_line_uncompressed st line := by
  rcases hsc : scanStartEnd line 0 none none with ⟨os, oe⟩
  unfold dump_line dump_line_uncompressed
  rw [hsc]
  cases os <;> cases oe <;> rfl

lemma rawOnly_dump_line_false {st st₁ : DymoProtocolBuilder} {line : List Nat}
    (h : dump_line false st line = .ok st₁) : RawOnlyStep st st₁ := by
  rw [dump_line_false_eq] at h
  rcases hsc : scanStartEnd line 0 none none with ⟨os, oe⟩
  unfold dump_line_uncompressed at h
  rw [hsc] at h
  have blank_case : ∀ {sta stb : DymoProtocolBuilder},
      (sta.set_bytes_per_line 0 >>= fun st => st.transfer_data []) = .ok stb →
      RawOnlyStep sta stb := by
    intro sta stb hh
    rcases bind_eq_ok.mp hh with ⟨a, ha, hh⟩
    exact rawOnly_trans (rawOnly_set_bytes_per_line ha) (rawOnly_transfer_data hh)
  cases os with
  | none => exact blank_case h
  | some s =>
    cases oe with
    | none => exact blank_case h
    | some e =>
      rcases bind_eq_ok.mp h with ⟨a, ha, h⟩
      rcases bind_eq_ok.mp h with ⟨b, hb, h⟩
      exact rawOnly_trans (rawOnly_set_dot_tab ha)
        (rawOnly_trans (rawOnly_set_bytes_per_line hb) (rawOnly_transfer_data h))

lemma rawOnly_foldlM {α : Type} (f : DymoProtocolBuilder → α → PbExcept)
    (hf : ∀ st x st₁, f st x = .ok st₁ → RawOnlyStep st st₁) :
    ∀ (xs : List α) (st st₁ : DymoProtocolBuilder),
      xs.foldlM f st = .ok st₁ → RawOnlyStep st st₁ := by
  intro xs
  induction xs with
  | nil =>
    intro st st₁ h
    simp only [List.foldlM_nil] at h
    injection h with h
    subst h
    exact rawOnly_refl st
  | cons x xs ih =>
    intro st st₁ h
    simp only [List.foldlM_cons] at h
    rcases bind_eq_ok.mp h with ⟨a, ha, h⟩
    exact rawOnly_trans (hf st x a ha) (ih a st₁ h)

lemma rawOnly_tape_dump_label {st st₁ : DymoProtocolBuilder} {lines : List (List Nat)}
    (h : tape_dump_label st lines = .ok st₁) : RawOnlyStep st st₁ := by
  unfold tape_dump_label at h
  rcases bind_eq_ok.mp h with ⟨a, ha, h⟩
  refine rawOnly_trans
    (rawOnly_foldlM _ (fun st x st₁ hx => rawOnly_dump_line_false hx) lines st a ha) ?_
  unfold DymoProtocolBuilder.cut_tape at h
  exact rawOnly_of_ok .cutTape h rfl (by simp [renderCmd]) rfl

lemma rawOnly_tape_init_job {tt : Int} {st₁ : DymoProtocolBuilder}
    (h : tape_init_job tt = .ok st₁) : RawOnlyStep DymoProtocolBuilder.start st₁ := by
  unfold tape_init_job at h
  rcases bind_eq_ok.mp h with ⟨a, ha, h⟩
  rcases bind_eq_ok.mp h with ⟨b, hb, h⟩
  rcases bind_eq_ok.mp h with ⟨d, hd, h⟩
  refine rawOnly_trans (rawOnly_of_ok .startTape ha rfl (by simp [renderCmd]) rfl)
    (rawOnly_trans (rawOnly_set_dot_tab hb)
      (rawOnly_trans (rawOnly_set_bytes_per_line hd) ?_))
  unfold DymoProtocolBuilder.set_tape_type at h
  exact rawOnly_of_ok (.setTapeType tt.toNat) h rfl (by simp [renderCmd]) rfl

/-- C1: the claim states that dump_label emits every non-blank row, row
lastNonBlankRow included, before shortFormFeed.  The code instead breaks
when the advanced index equals last_line_idx, which is before row
last_line_idx itself is dumped whenever the row preceding it is non-blank.
Evaluated at the failing input, a bitmap of two non-blank one-byte rows:
lastNonBlankRow is 1, yet the produced stream holds exactly one raw
transfer (one 16 byte), for row 0 only, followed by the short form feed;
row 1 is never encoded.  This contradicts the spec and the in-code comment
(break if this was the last line that contains data). -/
theorem dump_label_drops_last_nonblank_row :
    lastLineIdx [[1], [1]] = 1 ∧
    dump_label true DymoProtocolBuilder.start [[1], [1]] =
      .ok ⟨[0x1b, 0x42, 0x00, 0x1b, 0x44, 0x01, 0x16, 0x01, 0x1b, 0x47], some 0, some 1⟩ ∧
    List.count 0x16 [0x1b, 0x42, 0x00, 0x1b, 0x44, 0x01, 0x16, 0x01, 0x1b, 0x47] = 1 :=
  ⟨rfl, rfl, by decide⟩

/-- C2 counterexample: the claim quantifies over every prior encoder state,
but when the recorded bytes-per-line is already 0 the memoized
set_bytes_per_line emits nothing, so the blank line appends only the byte
16, not 1B 44 00 16. -/
theorem blank_line_bpl_memoized_cex :
    dump_line true ⟨[], none, some 0⟩ [0, 0] = .ok ⟨[0x16], none, some 0⟩ ∧
    ([0x16] : List Nat) ≠ [0x1b, 0x44, 0x00, 0x16] := ⟨rfl, by decide⟩

/-- C2 (amended): an all-zero row of any width appends exactly 1B 44 00
followed by 16 with no payload when the recorded bytes-per-line differs
from 0, and only the byte 16 when bytes-per-line is already recorded as 0;
in both cases the dot-tab state is untouched. -/
theorem blank_line_emits (c : Bool) (st : DymoProtocolBuilder) (line : List Nat)
    (h : line.all (· == 0) = true) :
    dump_line c st line = .ok ⟨st.data ++
      (if st.bytes_per_line = some 0 then [0x16] else [0x1b, 0x44, 0x00, 0x16]),
      st.dot_tab, some 0⟩ := by
  rw [dump_line_blank_eq c st line h]
  by_cases hb : st.bytes_per_line = some 0
  · simp [bplPart, hb]
  · simp [bplPart, hb]

/-- C2 witness: a fresh builder has no recorded bytes-per-line, so a blank
one-byte row appends 1B 44 00 16 and preserves the dot tab. -/
theorem blank_line_emits_witness :
    dump_line false ⟨[], some 3, none⟩ [0] =
      .ok ⟨[0x1b, 0x44, 0x00, 0x16], some 3, some 0⟩ := by
  have := blank_line_emits false ⟨[], some 3, none⟩ [0] (by decide)
  simpa using this

/-- C3 counterexample: a two-row all-blank bitmap produces exactly the same
bytes as a zero-row bitmap, namely the short form feed 1B 47 alone; no
transfer (16 or 17) and no skip-lines command (1B 66) is emitted, so the
stream does not account for the two rows, refuting that an all-blank
bitmap still emits through its full height. -/
theorem all_blank_label_same_as_empty_cex :
    dump_label true DymoProtocolBuilder.start [[0], [0]] =
        dump_label true DymoProtocolBuilder.start [] ∧
    dump_label true DymoProtocolBuilder.start [[0], [0]] =
      .ok ⟨[0x1b, 0x47], none, none⟩ ∧
    (0x16 : Nat) ∉ [0x1b, 0x47] ∧ (0x17 : Nat) ∉ [0x1b, 0x47] ∧
    (0x66 : Nat) ∉ [0x1b, 0x47] :=
  ⟨rfl, rfl, by decide, by decide, by decide⟩

/-- C3 (amended): for an all-blank bitmap, lastNonBlankRow indeed defaults
to the last row index, but addLabel emits nothing for the rows: blank rows
only accumulate the skip counter, which is flushed only by a later
non-blank row, so the whole bitmap contributes exactly the shortFormFeed
bytes 1B 47 and nothing else. -/
theorem all_blank_label_dump (c : Bool) (st : DymoProtocolBuilder) (lines : List (List Nat))
    (h : ∀ line ∈ lines, line.all (· == 0) = true) :
    lastLineIdx lines = lines.length - 1 ∧
    dump_label c st lines = .ok ⟨st.data ++ [0x1b, 0x47], st.dot_tab, st.bytes_per_line⟩ := by
  refine ⟨lastLineIdx_all_blank lines h, ?_⟩
  unfold dump_label
  rw [dumpRows_all_blank c lines _ h lines.length 0 0 st, ok_bind, short_form_feed_eq]

/-- C3 witness: a three-row all-blank bitmap on a builder with prior state
appends only the short form feed and keeps the memoized fields. -/
theorem all_blank_label_dump_witness :
    lastLineIdx [[0, 0], [0, 0], [0, 0]] = 2 ∧
    dump_label true ⟨[5], some 1, some 2⟩ [[0, 0], [0, 0], [0, 0]] =
      .ok ⟨[5, 0x1b, 0x47], some 1, some 2⟩ := by
  have := all_blank_label_dump true ⟨[5], some 1, some 2⟩ [[0, 0], [0, 0], [0, 0]] (by decide)
  simpa using this

/-- C4: with the compressed policy enabled, a non-blank line is emitted as
the compressed 17 transfer exactly when the run count is strictly below
the byte count of the active window; on a tie or more runs the raw 16
transfer of the window is used.  The emitted prefix commands and the
recorded fields are also pinned down. -/
theorem dump_line_compression_tiebreak (st : DymoProtocolBuilder) (line : List Nat) (s e : Nat)
    (hscan : scanStartEnd line 0 none none = (some s, some e))
    (hlen : line.length ≤ 255) (hbytes : ∀ b ∈ line, b < 256) :
    dump_line true st line = .ok ⟨st.data ++ dtPart st s ++
      bplPart st (windowOf line s e).length ++
      (if (lineRuns line s e).length < (windowOf line s e).length
       then 0x17 :: encodedRuns (lineRuns line s e)
       else 0x16 :: windowOf line s e),
      some (s : Int), some ((windowOf line s e).length : Int)⟩ := by
  have := dump_line_nonblank_eq true st line s e hscan hlen hbytes
  simpa using this

/-- C4 witness: the one-byte window FF compresses to the single run of 8
set bits, one run against one window byte, a tie, so the raw transfer 16 FF
wins; this is the end-to-end tie-break scenario of the spec. -/
theorem dump_line_compression_tiebreak_witness :
    dump_line true DymoProtocolBuilder.start [0xFF] =
      .ok ⟨[0x1b, 0x42, 0x00, 0x1b, 0x44, 0x01, 0x16, 0xFF], some 0, some 1⟩ := by
  have := dump_line_compression_tiebreak DymoProtocolBuilder.start [0xFF] 0 0 (by decide)
    (by decide) (by decide)
  exact this

/-- C5: set_dot_tab and set_bytes_per_line append nothing and leave the
state unchanged when the argument equals the recorded value, and otherwise
emit the command and record the argument; both recorded fields of a fresh
builder start undefined, so the first write of each is always emitted; and
re-encoding the same line on the state a dump_line call left behind
appends exactly one transfer command (a 16 or 17 block), never repeating
the 1B 42 or 1B 44 commands. -/
theorem encoder_memoization :
    (∀ (st : DymoProtocolBuilder) (n : Int), 0 ≤ n → n < 256 →
      (st.dot_tab = some n → st.set_dot_tab n = .ok st) ∧
      (st.dot_tab ≠ some n →
        st.set_dot_tab n = .ok ⟨st.data ++ [0x1b, 0x42, n.toNat], some n, st.bytes_per_line⟩) ∧
      (st.bytes_per_line = some n → st.set_bytes_per_line n = .ok st) ∧
      (st.bytes_per_line ≠ some n →
        st.set_bytes_per_line n = .ok ⟨st.data ++ [0x1b, 0x44, n.toNat], st.dot_tab, some n⟩)) ∧
    DymoProtocolBuilder.start.dot_tab = none ∧
    DymoProtocolBuilder.start.bytes_per_line = none ∧
    (∀ (c : Bool) (st st₁ : DymoProtocolBuilder) (line : List Nat),
      dump_line c st line = .ok st₁ →
      ∃ t p, dump_line c st₁ line = .ok ⟨st₁.data ++ t, st₁.dot_tab, st₁.bytes_per_line⟩ ∧
        (t = 0x16 :: p ∨ t = 0x17 :: p)) := by
  refine ⟨?_, rfl, rfl, ?_⟩
  · intro st n h0 h1
    refine ⟨fun h => set_dot_tab_memo st n h, fun h => ?_,
      fun h => set_bytes_per_line_memo st n h, fun h => ?_⟩
    · rw [set_dot_tab_eq_ok st n h0 h1, if_neg h]
    · rw [set_bytes_per_line_eq_ok st n h0 h1, if_neg h]
  · intro c st st₁ line h
    exact dump_line_ok_again h

/-- C6: every run the compression step builds from the bit expansion of a
window has length between 1 and 128 and a color bit of 0 or 1, so each
encoded run byte color * 128 + length - 1 lies below 256 and appending the
compressed transfer to the byte buffer never raises. -/
theorem compression_runs_bounded (st : DymoProtocolBuilder) (data : List Nat) :
    (∀ r ∈ compressRuns ((data.map byteBits).flatten),
      1 ≤ r.1 ∧ r.1 ≤ 128 ∧ r.2 ≤ 1) ∧
    ∃ st₁, st.transfer_compressed_data (compressRuns ((data.map byteBits).flatten)) = .ok st₁ ∧
      st₁.data = st.data ++ 0x17 :: encodedRuns (compressRuns ((data.map byteBits).flatten)) ∧
      ∀ b ∈ encodedRuns (compressRuns ((data.map byteBits).flatten)), b < 256 := by
  have hb := compressRuns_mem_bounds _ (pixels_le_one data)
  refine ⟨hb, _, transfer_compressed_eq_ok st _ hb, rfl, ?_⟩
  intro b hbm
  simp only [encodedRuns, List.mem_map] at hbm
  obtain ⟨r, hr, rfl⟩ := hbm
  obtain ⟨h1, h2, h3⟩ := hb r hr
  omega

/-- C7: the 0x17 branch of the stream decoder reads run bytes until the
decoded run lengths reach bytes_per_line * 8 bits: if the buffer holds
fewer bits than that, it raises instead of reading past the buffer, and
whenever it succeeds the decoded lengths total at least the target and the
byte at the resulting position is one of 16, 17, 1B (otherwise it raises
the resynchronization assertion, since a total function into Except that
cannot return ok must return error). -/
theorem decoder_compressed_resync (all_bytes : List Nat) (i bytes_per_line : Nat) :
    (totalBits (all_bytes.drop (i + 1)) < bytes_per_line * 8 →
      ∃ e, decode_compressed all_bytes i bytes_per_line = .error e) ∧
    (∀ runs j, decode_compressed all_bytes i bytes_per_line = .ok (runs, j) →
      bytes_per_line * 8 ≤ sumLens runs ∧
      (all_bytes[j]? = some 0x16 ∨ all_bytes[j]? = some 0x17 ∨ all_bytes[j]? = some 0x1b)) := by
  constructor
  · intro h
    obtain ⟨e, he⟩ := readRuns_short _ _ h
    unfold decode_compressed
    rw [he]
    exact ⟨e, rfl⟩
  · intro runs j h
    unfold decode_compressed at h
    cases hrr : readRuns (all_bytes.drop (i + 1)) (bytes_per_line * 8) with
    | error e => rw [hrr] at h; simp at h
    | ok pr =>
      rw [hrr] at h
      obtain ⟨runs0, bc⟩ := pr
      dsimp only at h
      cases hb : all_bytes[i + 1 + bc]? with
      | none => rw [hb] at h; simp at h
      | some b =>
        rw [hb] at h
        dsimp only at h
        by_cases hcond : b = 0x16 ∨ b = 0x17 ∨ b = 0x1b
        · rw [if_pos hcond] at h
          simp only [Except.ok.injEq, Prod.mk.injEq] at h
          obtain ⟨h1, h2⟩ := h
          subst h1
          subst h2
          refine ⟨readRuns_ok_sum _ _ _ _ hrr, ?_⟩
          rw [hb]
          rcases hcond with rfl | rfl | rfl <;> simp
        · rw [if_neg hcond] at h
          simp at h

/-- C8: skip_lines with a count above 255 or below 0 raises the bytearray
ValueError at the call site, the error value carrying the unchanged state:
nothing is appended to the buffer and no field changes, so the count is
never truncated or clamped into the one byte domain. -/
theorem skip_lines_fails_fast (st : DymoProtocolBuilder) (count : Int)
    (h : 255 < count ∨ count < 0) :
    st.skip_lines count = .error ("ValueError: bytes must be in range(0, 256)", st) := by
  have hc : validByte count = false := by
    simp only [validByte, Bool.and_eq_false_iff, decide_eq_false_iff_not]
    omega
  have hall : ([0x1b, 0x66, 0x1, count].all validByte) = false := by
    simp [List.all_cons, hc]
  unfold DymoProtocolBuilder.skip_lines DymoProtocolBuilder.raw
  rw [hall, if_neg Bool.false_ne_true]

/-- C8 witness: skipping 300 lines raises and leaves the fresh builder
untouched. -/
theorem skip_lines_fails_fast_witness :
    DymoProtocolBuilder.start.skip_lines 300 =
      .error ("ValueError: bytes must be in range(0, 256)", DymoProtocolBuilder.start) :=
  skip_lines_fails_fast DymoProtocolBuilder.start 300 (Or.inl (by norm_num))

/-- C9: the blank-line path of dump_line never touches the recorded
dot-tab: for every all-zero row and every prior state the call succeeds,
the dot-tab field is preserved, and only the recorded bytes-per-line
(set to 0) and the output buffer change. -/
theorem blank_line_preserves_dot_tab (c : Bool) (st : DymoProtocolBuilder) (line : List Nat)
    (h : line.all (· == 0) = true) :
    ∃ st₁, dump_line c st line = .ok st₁ ∧ st₁.dot_tab = st.dot_tab ∧
      st₁.bytes_per_line = some 0 ∧ st₁.data = st.data ++ bplPart st 0 ++ [0x16] :=
  ⟨_, dump_line_blank_eq c st line h, rfl, rfl, rfl⟩

/-- C9 witness: a blank three-byte row on a builder whose dot tab is 5
keeps the dot tab at 5. -/
theorem blank_line_preserves_dot_tab_witness :
    ∃ st₁, dump_line true ⟨[], some 5, none⟩ [0, 0, 0] = .ok st₁ ∧
      st₁.dot_tab = some 5 ∧ st₁.bytes_per_line = some 0 ∧
      st₁.data = (⟨[], some 5, none⟩ : DymoProtocolBuilder).data ++
        bplPart ⟨[], some 5, none⟩ 0 ++ [0x16] :=
  blank_line_preserves_dot_tab true ⟨[], some 5, none⟩ [0, 0, 0] (by decide)

/-- C10: tape jobs are always built with the compressed policy disabled,
so dump_line coincides with the uncompressed-only path on every line, and
the byte stream of any successful tape job decomposes into protocol
commands among which every data transfer is a raw 16 transfer and no
compressed 17 transfer occurs. -/
theorem tape_jobs_never_compress :
    (∀ (st : DymoProtocolBuilder) (line : List Nat),
      dump_line false st line = dump_line_uncompressed st line) ∧
    (∀ (tape_type : Int) (labels : List (List (List Nat))) (st₁ : DymoProtocolBuilder),
      tape_job tape_type labels = .ok st₁ →
      ∃ cmds : List ProtocolCmd,
        st₁.data = (cmds.map renderCmd).flatten ∧
        ∀ cmd ∈ cmds, cmd.isCompressedTransfer = false) := by
  refine ⟨dump_line_false_eq, ?_⟩
  intro tt labels st₁ h
  unfold tape_job at h
  rcases bind_eq_ok.mp h with ⟨a, ha, h⟩
  have step : RawOnlyStep DymoProtocolBuilder.start st₁ :=
    rawOnly_trans (rawOnly_tape_init_job ha)
      (rawOnly_foldlM _ (fun st x st₂ hx => rawOnly_tape_dump_label hx) labels a st₁ h)
  obtain ⟨cmds, hd, hc⟩ := step
  refine ⟨cmds, ?_, hc⟩
  simpa [DymoProtocolBuilder.start] using hd
